import Mathlib

/-!
Verification of the batched, memory-mapped data-loading pipeline
(`tutorials/sphinx_tuto/tensorclass_imagenet.py`).

The development shallowly embeds the pipeline:

* the Batch Store (`ImageNetData`, a tensorclass with `images` and
  `targets` fields backed by `MemmapTensor`s) as a pair of lists;
* the population loop of `ImageNetData.from_dataset` (lines 224-249)
  as sequential range writes of DataLoader batches;
* the parallel-population scheduling model (spec section 4.3) as a
  list of (offset, batch) tasks applied in an arbitrary order;
* the reader `Collate.__call__` (lines 275-290) over an explicit
  buffer heap, so that "copy out of the mapped region" is expressible;
* the shape derivation `dataset[0][0].squeeze().shape` (line 229) at
  the shape level;
* the batched transforms `InvAffine`, `RandomCrop`, `RandomHFlip` and
  `collate_transform` (lines 143-202) over rational-valued images with
  the random draws (Bernoulli coins, randint crop corners) made
  explicit inputs.
-/

namespace TensordictImagenet

/-- Error taxonomy of the pipeline (spec section 7).  `indexError` stands
for the Python `IndexError` raised by `dataset[0]` on an empty source;
the remaining constructors follow the spec's taxonomy
(`StorageAllocationError`, `SchemaMismatchError`, `IndexOutOfRangeError`,
`RecordProductionError`, `IncompleteStoreError`). -/
inductive Err where
  | indexError : Err
  | storageAllocation : Err
  | schemaMismatch : Err
  | indexOutOfRange : Err
  | recordProduction : Err
  | incompleteStore : Err
  deriving DecidableEq, Repr

/-- The Batch Store: the `ImageNetData` tensorclass (src lines 219-222),
one field buffer per schema field (`images`, `targets`), sharing the
leading record-count dimension.  A record's image payload has type `α`
and its target has type `β`. -/
structure BatchStore (α β : Type) where
  images : List α
  targets : List β
  deriving DecidableEq, Repr

variable {α β γ : Type}

/-- Modelled from the spec: `write_slice` of the Memory-Mapped Field Store
(spec section 4.1) — the semantics of the slice assignment
`data[i : i + _batch] = ...` (src line 244) on one field's flat buffer:
overwrite positions `[i, i + vs.length)` in place, leaving all other
positions unchanged. -/
def writeRange (l : List γ) (i : Nat) (vs : List γ) : List γ :=
  l.take i ++ vs ++ l.drop (i + vs.length)

/-- One step of `data[i : i + _batch] = cls(images=image, targets=target, ...)`
(src lines 244-246): write the images and the targets of a batch into the
matching index range of both field buffers. -/
def setSlice (st : BatchStore α β) (i : Nat) (im : List α) (tg : List β) :
    BatchStore α β :=
  ⟨writeRange st.images i im, writeRange st.targets i tg⟩

/-- Fuel-indexed chunking helper: split a list into consecutive chunks of
size `b` (the last chunk possibly shorter).  The fuel argument only forces
termination; it is always called with fuel at least the list length, and
each step consumes at least one element when `0 < b`. -/
def chunkListGo (b : Nat) : Nat → List γ → List (List γ)
  | 0, _ => []
  | _, [] => []
  | fuel + 1, x :: xs => (x :: xs).take b :: chunkListGo b fuel ((x :: xs).drop b)

/-- The batching performed by `DataLoader(dataset, batch_size=batch, ...)`
(src line 238): consecutive batches of size `b` in source order, the last
batch holding the remaining records. -/
def chunkList (b : Nat) (l : List γ) : List (List γ) :=
  chunkListGo b l.length l

/-- The population loop of `from_dataset` (src lines 239-247): starting
from offset `i`, write each received batch at the running offset and
advance the offset by the batch's actual length `_batch = image.shape[0]`. -/
def popLoop : BatchStore α β → Nat → List (List (α × β)) → BatchStore α β
  | st, _, [] => st
  | st, i, c :: cs =>
    popLoop (setSlice st i (c.map Prod.fst) (c.map Prod.snd)) (i + c.length) cs

/-- Modelled from the spec: the freshly allocated Batch Store (spec
section 3, Field Store lifecycle: "file allocated to full final size,
zero-initialized or uninitialized").  The `MemmapTensor` allocation of
src lines 226-235 is abstracted by filling each field buffer of length
`n` with an arbitrary initial (indeterminate) element. -/
def initStore (iI : α) (iT : β) (n : Nat) : BatchStore α β :=
  ⟨List.replicate n iI, List.replicate n iT⟩

/-- The classmethod `ImageNetData.from_dataset` (src lines 224-249) at the
value level: on an empty source, evaluating `dataset[0][0].squeeze().shape`
(src line 229) raises a Python `IndexError` before any field store is
allocated; otherwise allocate both field buffers at length `len(dataset)`
and run the population loop over the DataLoader's batches from offset 0.
This layer is element-type-agnostic (it captures control flow, offsets
and ordering, with records stored as supplied); the hard-coded
`dtype=torch.uint8` of the images store (src line 230) and the lossy
write-path cast it induces are modelled at pixel resolution by
`fromDatasetU8` below, which refines this definition. -/
def fromDataset (b : Nat) (iI : α) (iT : β) (ds : List (α × β)) :
    Except Err (BatchStore α β) :=
  match ds with
  | [] => Except.error Err.indexError
  | _ :: _ => Except.ok (popLoop (initStore iI iT ds.length) 0 (chunkList b ds))

/-- Modelled from the spec: the per-field gather of `read_slice` /
`get(indices)` (spec sections 4.1-4.2), the semantics of tensorclass
`__getitems__` used by the tensorclass DataLoader (src lines 267-269,
313-324): look up each requested index in the flat field buffer; any
out-of-range index makes the whole gather fail. -/
def getIdxs (l : List γ) : List Nat → Option (List γ)
  | [] => some []
  | j :: js =>
    match l[j]?, getIdxs l js with
    | some v, some vs => some (v :: vs)
    | _, _ => none

/-- Modelled from the spec: `get(indices)` of the Batch Store (spec
section 4.2) — gather the same index set from every field; requesting an
index outside `[0, record_count)` signals `IndexOutOfRangeError`.  No
other check is performed before serving a read (spec sections 5 and 9:
no population-complete flag is enforced at the storage layer). -/
def BatchStore.get (st : BatchStore α β) (idxs : List Nat) :
    Except Err (BatchStore α β) :=
  match getIdxs st.images idxs, getIdxs st.targets idxs with
  | some im, some tg => Except.ok ⟨im, tg⟩
  | _, _ => Except.error Err.indexOutOfRange

/-- Pre-assigned output offsets for a list of batches (spec section 4.3,
step 4: each dispatched batch carries the offset computed from input
order): the batch at position `k` is paired with the cumulative length of
the batches before it. -/
def withOffsets (i : Nat) : List (List γ) → List (Nat × List γ)
  | [] => []
  | c :: cs => (i, c) :: withOffsets (i + c.length) cs

/-- The population task list: the DataLoader's batches of `ds` in input
order, each carrying its dispatch-time offset. -/
def taskList (b : Nat) (ds : List (α × β)) : List (Nat × List (α × β)) :=
  withOffsets 0 (chunkList b ds)

/-- Completion of one population task: write its batch at its pre-assigned
offset (src lines 242-247, one iteration of the loop). -/
def applyTask (st : BatchStore α β) (t : Nat × List (α × β)) : BatchStore α β :=
  setSlice st t.1 (t.2.map Prod.fst) (t.2.map Prod.snd)

/-- Apply a list of population tasks in the given completion order (spec
section 4.3, step 4: the coordinator receives completed batches, possibly
out of submission order, and writes each at its pre-known offset). -/
def applyTasks (st : BatchStore α β) (ts : List (Nat × List (α × β))) :
    BatchStore α β :=
  ts.foldl applyTask st

/-- Tasks whose write ranges do not overlap: one ends at or before the
other starts.  This is a symmetric relation. -/
def disjTask (t u : Nat × List γ) : Prop :=
  t.1 + t.2.length ≤ u.1 ∨ u.1 + u.2.length ≤ t.1

/-- A task whose write range fits inside a store of `n` records. -/
def inBound (n : Nat) (t : Nat × List γ) : Prop :=
  t.1 + t.2.length ≤ n

/-- The write ranges emitted by the population loop, as (start, length)
pairs: range `[i, i + _batch)` for each batch, offsets cumulative in
input order (src lines 239-247). -/
def writeRangesOf (b : Nat) (ds : List (α × β)) : List (Nat × Nat) :=
  (taskList b ds).map (fun t => (t.1, t.2.length))

/-- The reader's transform step on a fetched Working Batch,
`out.images = self.transform(out.images)` (src line 289), with the
batched transform acting record-wise on the images field; the targets
field is not touched. -/
def transformImages (tf : α → α) (wb : BatchStore α β) : BatchStore α β :=
  ⟨wb.images.map tf, wb.targets⟩

/-- The reader's relocate step `out = out.to(self.device)` (src line 286)
at the value level: a device copy preserves the content of every field. -/
def relocateBatch (wb : BatchStore α β) : BatchStore α β :=
  ⟨wb.images, wb.targets⟩

/-- A ten-record source with image payload `i + 1` and target `i` for
record `i`, used to exercise aborted population (spec section 8,
scenario B). -/
def dsTen : List (Nat × Nat) :=
  (List.range 10).map (fun i => (i + 1, i))

/-- The store left behind when population over `dsTen` with batch size 2
aborts after completing only the first 2 of 5 batches (4 of 10 records
written). -/
def abortedStore : BatchStore Nat Nat :=
  applyTasks (initStore 0 0 10) ((taskList 2 dsTen).take 2)

/-- A buffer heap: the process's tensor storages, addressed by allocation
index.  Buffer 0, 1, ... hold flat `List γ` contents.  The memory-mapped
store's buffers and the Working Batch's buffers live in the same heap, so
aliasing and in-place mutation are expressible. -/
abbrev Heap (γ : Type) : Type := List (List γ)

/-- Read the content of buffer `r` (an unallocated reference reads as
empty). -/
def readBuf (h : Heap γ) (r : Nat) : List γ :=
  (h[r]?).getD []

/-- Allocate a fresh buffer holding `c`; returns the grown heap and the
new buffer's reference. -/
def allocBuf (h : Heap γ) (c : List γ) : Heap γ × Nat :=
  (h ++ [c], h.length)

/-- Overwrite buffer `r` in place with content `c` (an in-place tensor
mutation). -/
def writeBuf (h : Heap γ) (r : Nat) (c : List γ) : Heap γ :=
  h.set r c

/-- References to the two field buffers of a fetched batch (the `x` or
`out` of `Collate.__call__`, src lines 281-290). -/
structure BatchRefs where
  imagesRef : Nat
  targetsRef : Nat
  deriving DecidableEq, Repr

/-- The step `out = x.apply(lambda x: x.contiguous())` (src line 283).
Modelled from the spec: `fetch` "guarantees the result is realized into
ordinary (non-mapped) memory — i.e., forces a copy out of the mapped
region" (spec section 4.4), and `apply` acts independently on every field
(spec section 4.2): both fields are copied into freshly allocated
buffers. -/
def applyContiguous (h : Heap γ) (x : BatchRefs) : Heap γ × BatchRefs :=
  let a1 := allocBuf h (readBuf h x.imagesRef)
  let a2 := allocBuf a1.1 (readBuf a1.1 x.targetsRef)
  (a2.1, ⟨a1.2, a2.2⟩)

/-- The step `out = out.to(self.device)` (src line 286): a device
transfer copies every field into fresh buffers on the target device. -/
def toDevice (h : Heap γ) (x : BatchRefs) : Heap γ × BatchRefs :=
  let a1 := allocBuf h (readBuf h x.imagesRef)
  let a2 := allocBuf a1.1 (readBuf a1.1 x.targetsRef)
  (a2.1, ⟨a1.2, a2.2⟩)

/-- The step `out.images = self.transform(out.images)` (src line 289):
the batched transform produces a new tensor from the images buffer and
the field is rebound to it; the targets reference is untouched. -/
def setImagesTransformed (tf : List γ → List γ) (h : Heap γ) (x : BatchRefs) :
    Heap γ × BatchRefs :=
  let a := allocBuf h (tf (readBuf h x.imagesRef))
  (a.1, ⟨a.2, x.targetsRef⟩)

/-- `Collate.__call__` (src lines 281-290): copy the fetched batch out of
the mapped region, optionally move it to the device, optionally apply the
batched transform to the images field only. -/
def collateCall (tf : Option (List γ → List γ)) (dev : Bool) (h : Heap γ)
    (x : BatchRefs) : Heap γ × BatchRefs :=
  let s1 := applyContiguous h x
  let s2 := if dev then toDevice s1.1 s1.2 else s1
  match tf with
  | some t => setImagesTransformed t s2.1 s2.2
  | none => s2

/-- The `.squeeze()` of src line 229 at the shape level: remove every
size-one dimension from a shape. -/
def squeezeShape (s : List Nat) : List Nat :=
  s.filter (fun d => d ≠ 1)

/-- Modelled from the spec: the shape check performed by one batch write
`data[i : i + _batch] = ...` (src line 244) — the DataLoader stacks the
chunk's records and `set` requires the supplied values' per-record shape
to equal the store's per-record shape, signalling `SchemaMismatchError`
otherwise (spec section 4.2). -/
def writeChunkShapes (storeShape : List Nat) (c : List (List Nat)) :
    Except Err Unit :=
  if c.all (fun s => s = storeShape) then Except.ok () else Except.error Err.schemaMismatch

/-- The population loop at the shape level: every batch write must pass
the shape check of `writeChunkShapes`. -/
def popLoopShapes (storeShape : List Nat) :
    List (List (List Nat)) → Except Err Unit
  | [] => Except.ok ()
  | c :: cs =>
    match writeChunkShapes storeShape c with
    | Except.ok _ => popLoopShapes storeShape cs
    | Except.error e => Except.error e

/-- `ImageNetData.from_dataset` (src lines 224-249) at the shape level:
the per-record image shape of the allocated store is
`dataset[0][0].squeeze().shape` (src line 229) — derived solely from the
first record; an empty source raises `IndexError` there, before any field
store is allocated.  On success, returns the store's per-record image
shape and its record count. -/
def fromDatasetShapes (b : Nat) (shapes : List (List Nat)) :
    Except Err (List Nat × Nat) :=
  match shapes with
  | [] => Except.error Err.indexError
  | s0 :: _ =>
    match popLoopShapes (squeezeShape s0) (chunkList b shapes) with
    | Except.ok _ => Except.ok (squeezeShape s0, shapes.length)
    | Except.error e => Except.error e

/-- A single-channel image: a list of rows of rational pixel values.  The
per-channel structure of the source (3 channels with per-channel `loc`
and `scale`) is abstracted to one channel; `flip(-1)` and the crop act on
the last two dimensions, which are retained. -/
abbrev Image : Type := List (List ℚ)

/-- `InvAffine.forward` (src lines 151-152) on one image:
`(x - self.loc) / self.scale` elementwise. -/
def invAffineImage (loc scale : ℚ) (img : Image) : Image :=
  img.map (fun row => row.map (fun v => (v - loc) / scale))

/-- `InvAffine.forward` on a batch: the elementwise affine map acts on
every image of the batch. -/
def invAffine (loc scale : ℚ) (batch : List Image) : List Image :=
  batch.map (invAffineImage loc scale)

/-- `x.masked_fill(mask, 0.0)` (src line 166) where the mask, built by
expanding a per-image Bernoulli draw of shape `(*batch, 1, 1, 1)`
(src lines 161-165), is constant across one image: fill the whole image
with 0 when the draw is true, keep it otherwise. -/
def maskedFill (m : Bool) (img : Image) : Image :=
  if m then img.map (fun row => row.map (fun _ => 0)) else img

/-- `.flip(-1)` (src line 166): reverse the last dimension, i.e. every
row. -/
def flipLast (img : Image) : Image :=
  img.map List.reverse

/-- Elementwise sum of two images (the `+` of src line 166). -/
def addImage (a b : Image) : Image :=
  List.zipWith (fun ra rb => List.zipWith (fun u v => u + v) ra rb) a b

/-- `RandomHFlip.forward` (src lines 159-166) on one image, with the
Bernoulli draw `coin` made an explicit input:
`x.masked_fill(idx, 0.0) + x.masked_fill(~idx, 0.0).flip(-1)`. -/
def hflipImage (coin : Bool) (img : Image) : Image :=
  addImage (maskedFill coin img) (flipLast (maskedFill (!coin) img))

/-- `RandomHFlip.forward` on a batch: one independent Bernoulli draw per
image (the shape `(*x.shape[:-3], 1, 1, 1)` of src line 162). -/
def randomHFlip (coins : List Bool) (batch : List Image) : List Image :=
  List.zipWith hflipImage coins batch

/-- `x.gather(-2, index0)` (src lines 177-181, 185) with
`index0 r = i0 + r` for `r < h`: select `h` consecutive rows starting at
row `i0`. -/
def gatherRows (i0 h : Nat) (img : Image) : Image :=
  (List.range h).map (fun r => img.getD (i0 + r) [])

/-- `.gather(-1, index1)` (src lines 182-185) with `index1 c = i1 + c`
for `c < w`: select `w` consecutive columns starting at column `i1` in
every row. -/
def gatherCols (i1 w : Nat) (img : Image) : Image :=
  img.map (fun row => (List.range w).map (fun c => row.getD (i1 + c) 0))

/-- `RandomCrop.forward` (src lines 175-185) on one image, with the two
`torch.randint` draws `d = (i0, i1)` made explicit inputs: gather `h`
rows from `i0` then `w` columns from `i1`. -/
def randomCropImage (h w : Nat) (d : Nat × Nat) (img : Image) : Image :=
  gatherCols d.2 w (gatherRows d.1 h img)

/-- `RandomCrop.forward` on a batch: one independent corner draw per
image (the draws have batch shape `(*batch, 1)`, src lines 177, 182). -/
def randomCrop (h w : Nat) (draws : List (Nat × Nat)) (batch : List Image) :
    List Image :=
  List.zipWith (randomCropImage h w) draws batch

/-- `collate_transform` (src lines 195-202):
`nn.Sequential(InvAffine(loc, scale), RandomCrop(w, h), RandomHFlip())`,
with the random draws of the two random layers explicit inputs. -/
def collateTransform (loc scale : ℚ) (h w : Nat) (draws : List (Nat × Nat))
    (coins : List Bool) (batch : List Image) : List Image :=
  randomHFlip coins (randomCrop h w draws (invAffine loc scale batch))

/-- A concrete 3x3 test image with pairwise distinct pixel values. -/
def testImage : Image :=
  [[1, 2, 3], [4, 5, 6], [7, 8, 9]]

/-- A record's image payload at pixel resolution: a flattened list of
rational pixel values (rationals stand for the exact values of the uint8
or float tensors; the spatial structure, irrelevant to the dtype cast, is
flattened). -/
abbrev UImage : Type := List ℚ

/-- Truncation toward zero, the rounding used when a float tensor is
converted to an integer dtype. -/
def ratTrunc (v : ℚ) : ℤ :=
  if 0 ≤ v then ⌊v⌋ else -⌊-v⌋

/-- The lossy conversion applied by the write path when records are
assigned into the images store, whose dtype is hard-coded to
`torch.uint8` (src line 230): truncate toward zero and wrap into the
unsigned byte range `[0, 256)`.  On values that are already integers in
`[0, 256)` (the uint8 raw train images) it is the identity; on
float-transformed values (the normalized validation images, src line
258) it is lossy. -/
def castUint8 (v : ℚ) : ℚ :=
  (((ratTrunc v % 256 + 256) % 256 : ℤ) : ℚ)

/-- The uint8 cast applied pixelwise to a whole image. -/
def castImage (img : UImage) : UImage :=
  img.map castUint8

/-- The population loop of `from_dataset` with the store's uint8 images
dtype made explicit: each batch write
`data[i : i + _batch] = cls(images=image, ...)` (src line 244) casts the
supplied image values to the store's element type (`dtype=torch.uint8`,
src line 230) as it stores them; targets (`torch.int64`, src line 232)
are stored exactly. -/
def popLoopU8 {β : Type} : BatchStore UImage β → Nat → List (List (UImage × β)) → BatchStore UImage β
  | st, _, [] => st
  | st, i, c :: cs =>
    popLoopU8 (setSlice st i (c.map (fun r => castImage r.1)) (c.map Prod.snd))
      (i + c.length) cs

/-- `ImageNetData.from_dataset` (src lines 224-249) at pixel resolution,
with the hard-coded `dtype=torch.uint8` of the images store (src line
230) modelled by the write-path cast of `popLoopU8`.  The tutorial calls
this once on uint8 raw records (src line 257, lossless) and once on
float-transformed validation records (src line 258, lossy). -/
def fromDatasetU8 {β : Type} (b : Nat) (iI : UImage) (iT : β)
    (ds : List (UImage × β)) : Except Err (BatchStore UImage β) :=
  match ds with
  | [] => Except.error Err.indexError
  | _ :: _ =>
    Except.ok (popLoopU8 (initStore iI iT ds.length) 0 (chunkList b ds))

/-- The action of the population loop on a single field buffer: write each
chunk at the running offset.  `popLoop` acts as `popField` on each of the
two field buffers (lemma `popLoop_eq_popField`). -/
def popField : Nat → List γ → List (List γ) → List γ
  | _, cur, [] => cur
  | i, cur, c :: cs => popField (i + c.length) (writeRange cur i c) cs

/- ------------------------------------------------------------------ -/
/- Helper lemmas.                                                      -/
/- ------------------------------------------------------------------ -/

theorem length_writeRange {l vs : List γ} {i : Nat} (h : i + vs.length ≤ l.length) :
    (writeRange l i vs).length = l.length := by
  simp only [writeRange, List.length_append, List.length_take, List.length_drop]
  omega

theorem getElem?_writeRange (l vs : List γ) (i k : Nat)
    (h : i + vs.length ≤ l.length) :
    (writeRange l i vs)[k]? =
      if i ≤ k ∧ k < i + vs.length then vs[k - i]? else l[k]? := by
  have hti : (l.take i).length = i := by
    simp only [List.length_take]
    omega
  simp only [writeRange, List.getElem?_append, List.length_append,
    List.length_take, List.getElem?_take, List.getElem?_drop]
  split_ifs <;> first
    | rfl
    | omega
    | (congr 1; omega)

theorem chunkListGo_flatten {b : Nat} (hb : 0 < b) :
    ∀ (fuel : Nat) (l : List γ), l.length ≤ fuel →
      (chunkListGo b fuel l).flatten = l := by
  intro fuel
  induction fuel with
  | zero =>
    intro l hl
    have hnil : l = [] := List.eq_nil_of_length_eq_zero (by omega)
    subst hnil
    simp [chunkListGo]
  | succ n ih =>
    intro l hl
    match l with
    | [] => simp [chunkListGo]
    | x :: xs =>
      simp only [chunkListGo, List.flatten_cons]
      rw [ih ((x :: xs).drop b) (by simp only [List.length_drop]; simp at hl ⊢; omega)]
      exact List.take_append_drop b (x :: xs)

theorem chunkList_flatten {b : Nat} (hb : 0 < b) (l : List γ) :
    (chunkList b l).flatten = l :=
  chunkListGo_flatten hb l.length l le_rfl

theorem chunkListGo_map {δ : Type} {b : Nat} (f : γ → δ) :
    ∀ (fuel : Nat) (l : List γ),
      chunkListGo b fuel (l.map f) = (chunkListGo b fuel l).map (List.map f) := by
  intro fuel
  induction fuel with
  | zero => intro l; simp [chunkListGo]
  | succ n ih =>
    intro l
    match l with
    | [] => simp [chunkListGo]
    | x :: xs =>
      show (List.map f (x :: xs)).take b :: chunkListGo b n ((List.map f (x :: xs)).drop b)
          = ((x :: xs).take b :: chunkListGo b n ((x :: xs).drop b)).map (List.map f)
      rw [← List.map_take, ← List.map_drop, ih, List.map_cons]

theorem chunkList_map {δ : Type} {b : Nat} (f : γ → δ) (l : List γ) :
    chunkList b (l.map f) = (chunkList b l).map (List.map f) := by
  simp only [chunkList, List.length_map]
  exact chunkListGo_map f l.length l

theorem chunkListGo_mem_length {b : Nat} (hb : 0 < b) :
    ∀ (fuel : Nat) (l : List γ) (c : List γ), c ∈ chunkListGo b fuel l →
      0 < c.length ∧ c.length ≤ b := by
  intro fuel
  induction fuel with
  | zero => intro l c hc; simp [chunkListGo] at hc
  | succ n ih =>
    intro l c hc
    match l with
    | [] => simp [chunkListGo] at hc
    | x :: xs =>
      simp only [chunkListGo, List.mem_cons] at hc
      rcases hc with hc | hc
      · subst hc
        constructor
        · simp only [List.length_take, List.length_cons]
          omega
        · simp only [List.length_take]
          omega
      · exact ih _ _ hc

theorem chunkList_mem_length {b : Nat} (hb : 0 < b) {l c : List γ}
    (hc : c ∈ chunkList b l) : 0 < c.length ∧ c.length ≤ b :=
  chunkListGo_mem_length hb l.length l c hc

theorem popLoop_eq_popField :
    ∀ (cs : List (List (α × β))) (st : BatchStore α β) (i : Nat),
      popLoop st i cs =
        ⟨popField i st.images (cs.map (List.map Prod.fst)),
         popField i st.targets (cs.map (List.map Prod.snd))⟩ := by
  intro cs
  induction cs with
  | nil => intro st i; rfl
  | cons c cs ih =>
    intro st i
    simp only [popLoop, List.map_cons, popField, List.length_map]
    exact ih _ _

theorem popField_eq :
    ∀ (cs : List (List γ)) (i : Nat) (cur : List γ),
      i + cs.flatten.length ≤ cur.length →
      popField i cur cs = cur.take i ++ cs.flatten ++ cur.drop (i + cs.flatten.length) := by
  intro cs
  induction cs with
  | nil =>
    intro i cur _
    simp only [popField, List.flatten_nil, List.length_nil, Nat.add_zero,
      List.append_nil]
    exact (List.take_append_drop i cur).symm
  | cons c cs ih =>
    intro i cur hlen
    simp only [List.flatten_cons, List.length_append] at hlen ⊢
    have hc : i + c.length ≤ cur.length := by omega
    have hi : i ≤ cur.length := by omega
    have hA : ((cur.take i ++ c) ++ cur.drop (i + c.length)).take (i + c.length)
        = cur.take i ++ c := by
      apply List.take_left'
      simp only [List.length_append, List.length_take]
      omega
    have hB : ((cur.take i ++ c) ++ cur.drop (i + c.length)).drop (i + c.length)
        = cur.drop (i + c.length) := by
      apply List.drop_left'
      simp only [List.length_append, List.length_take]
      omega
    rw [popField, ih (i + c.length) (writeRange cur i c)
      (by rw [length_writeRange hc]; omega)]
    show (writeRange cur i c).take (i + c.length) ++ cs.flatten ++
        (writeRange cur i c).drop (i + c.length + cs.flatten.length) = _
    rw [show writeRange cur i c = (cur.take i ++ c) ++ cur.drop (i + c.length) from
      by simp [writeRange, List.append_assoc], hA]
    rw [show i + c.length + cs.flatten.length = (i + c.length) + cs.flatten.length from rfl]
    rw [← List.drop_drop, hB, List.drop_drop]
    rw [show i + c.length + cs.flatten.length = i + (c.length + cs.flatten.length) from by omega]
    simp [List.append_assoc]

theorem popLoop_content {b : Nat} (hb : 0 < b) (iI : α) (iT : β)
    (ds : List (α × β)) :
    popLoop (initStore iI iT ds.length) 0 (chunkList b ds) =
      ⟨ds.map Prod.fst, ds.map Prod.snd⟩ := by
  rw [popLoop_eq_popField]
  have h1 : (chunkList b ds).map (List.map Prod.fst) = chunkList b (ds.map Prod.fst) :=
    (chunkList_map Prod.fst ds).symm
  have h2 : (chunkList b ds).map (List.map Prod.snd) = chunkList b (ds.map Prod.snd) :=
    (chunkList_map Prod.snd ds).symm
  have hf1 : (chunkList b (ds.map Prod.fst)).flatten = ds.map Prod.fst :=
    chunkList_flatten hb _
  have hf2 : (chunkList b (ds.map Prod.snd)).flatten = ds.map Prod.snd :=
    chunkList_flatten hb _
  rw [h1, h2]
  rw [popField_eq _ 0 _ (by simp [hf1, initStore]),
      popField_eq _ 0 _ (by simp [hf2, initStore])]
  simp [hf1, hf2, initStore]

theorem fromDataset_ok {b : Nat} (hb : 0 < b) (iI : α) (iT : β)
    {ds : List (α × β)} (hne : ds ≠ []) :
    fromDataset b iI iT ds = Except.ok ⟨ds.map Prod.fst, ds.map Prod.snd⟩ := by
  match ds with
  | [] => exact absurd rfl hne
  | d :: rest =>
    show Except.ok (popLoop (initStore iI iT (d :: rest).length) 0 (chunkList b (d :: rest))) = _
    rw [popLoop_content hb]

theorem getIdxs_singleton (l : List γ) (j : Nat) :
    getIdxs l [j] = (l[j]?).map (fun v => [v]) := by
  cases h : l[j]? with
  | none => simp [getIdxs, h]
  | some v => simp [getIdxs, h]

theorem getIdxs_some {l : List γ} :
    ∀ {idxs : List Nat} {r : List γ}, getIdxs l idxs = some r →
      r.length = idxs.length ∧
      ∀ (k j : Nat), idxs[k]? = some j → r[k]? = l[j]? := by
  intro idxs
  induction idxs with
  | nil =>
    intro r h
    simp only [getIdxs, Option.some.injEq] at h
    subst h
    refine ⟨rfl, ?_⟩
    intro k j hk
    simp at hk
  | cons j js ih =>
    intro r h
    simp only [getIdxs] at h
    cases hj : l[j]? with
    | none => rw [hj] at h; exact absurd h (by simp)
    | some v =>
      cases hrest : getIdxs l js with
      | none => rw [hj, hrest] at h; exact absurd h (by simp)
      | some vs =>
        rw [hj, hrest] at h
        simp only [Option.some.injEq] at h
        subst h
        obtain ⟨hlen, hidx⟩ := ih hrest
        refine ⟨by simp [hlen], ?_⟩
        intro k j' hk
        cases k with
        | zero =>
          simp only [List.getElem?_cons_zero, Option.some.injEq] at hk ⊢
          subst hk
          exact hj.symm
        | succ m =>
          simp only [List.getElem?_cons_succ] at hk ⊢
          exact hidx m j' hk

theorem getIdxs_all_inbounds {l : List γ} :
    ∀ {idxs : List Nat}, (∀ j ∈ idxs, j < l.length) →
      ∃ r, getIdxs l idxs = some r := by
  intro idxs
  induction idxs with
  | nil => intro _; exact ⟨[], rfl⟩
  | cons j js ih =>
    intro hall
    obtain ⟨r, hr⟩ := ih (fun j' hj' => hall j' (List.mem_cons_of_mem _ hj'))
    have hj : j < l.length := hall j (List.mem_cons_self j js)
    refine ⟨l[j] :: r, ?_⟩
    simp only [getIdxs, List.getElem?_eq_getElem hj, hr]

theorem writeRange_comm {l : List γ} {i j : Nat} {vs ws : List γ}
    (hij : i + vs.length ≤ j) (hj : j + ws.length ≤ l.length) :
    writeRange (writeRange l i vs) j ws = writeRange (writeRange l j ws) i vs := by
  have hi : i + vs.length ≤ l.length := by omega
  apply List.ext_getElem?
  intro k
  rw [getElem?_writeRange _ _ _ _ (by rw [length_writeRange hi]; omega),
      getElem?_writeRange _ _ _ _ hi,
      getElem?_writeRange _ _ _ _ (by rw [length_writeRange hj]; omega),
      getElem?_writeRange _ _ _ _ hj]
  split_ifs <;> first | rfl | omega

theorem disjTask_symm {t u : Nat × List γ} (h : disjTask t u) : disjTask u t :=
  h.symm

theorem applyTask_length {n : Nat} {st : BatchStore α β}
    {t : Nat × List (α × β)} (ht : inBound n t)
    (h1 : st.images.length = n) (h2 : st.targets.length = n) :
    (applyTask st t).images.length = n ∧ (applyTask st t).targets.length = n := by
  unfold inBound at ht
  constructor
  · show (writeRange st.images t.1 (t.2.map Prod.fst)).length = n
    rw [length_writeRange (by rw [List.length_map, h1]; exact ht)]
    exact h1
  · show (writeRange st.targets t.1 (t.2.map Prod.snd)).length = n
    rw [length_writeRange (by rw [List.length_map, h2]; exact ht)]
    exact h2

theorem applyTask_comm {n : Nat} {st : BatchStore α β}
    {t u : Nat × List (α × β)} (h1 : st.images.length = n)
    (h2 : st.targets.length = n) (ht : inBound n t) (hu : inBound n u)
    (hd : disjTask t u) :
    applyTask (applyTask st t) u = applyTask (applyTask st u) t := by
  unfold inBound at ht hu
  rcases hd with hd | hd
  · simp only [applyTask, setSlice]
    congr 1
    · exact writeRange_comm (by rw [List.length_map]; exact hd)
        (by rw [List.length_map, h1]; exact hu)
    · exact writeRange_comm (by rw [List.length_map]; exact hd)
        (by rw [List.length_map, h2]; exact hu)
  · simp only [applyTask, setSlice]
    congr 1
    · exact (writeRange_comm (by rw [List.length_map]; exact hd)
        (by rw [List.length_map, h1]; exact ht)).symm
    · exact (writeRange_comm (by rw [List.length_map]; exact hd)
        (by rw [List.length_map, h2]; exact ht)).symm

theorem applyTasks_perm {n : Nat} {ts ts' : List (Nat × List (α × β))}
    (hperm : ts.Perm ts') :
    ∀ st : BatchStore α β, List.Pairwise disjTask ts →
      (∀ t ∈ ts, inBound n t) → st.images.length = n → st.targets.length = n →
      applyTasks st ts = applyTasks st ts' := by
  induction hperm with
  | nil => intro st _ _ _ _; rfl
  | cons x hperm ih =>
    intro st hp hbnd h1 h2
    show applyTasks (applyTask st x) _ = applyTasks (applyTask st x) _
    obtain ⟨ha, hb⟩ := applyTask_length (hbnd x (List.mem_cons_self _ _)) h1 h2
    exact ih _ (List.Pairwise.of_cons hp)
      (fun t ht => hbnd t (List.mem_cons_of_mem _ ht)) ha hb
  | swap x y l =>
    intro st hp hbnd h1 h2
    show applyTasks (applyTask (applyTask st y) x) l
        = applyTasks (applyTask (applyTask st x) y) l
    rw [applyTask_comm h1 h2 (hbnd y (List.mem_cons_self _ _))
      (hbnd x (by simp)) (List.rel_of_pairwise_cons hp (by simp))]
  | trans hab hbc ih1 ih2 =>
    intro st hp hbnd h1 h2
    rw [ih1 st hp hbnd h1 h2,
        ih2 st ((List.Perm.pairwise_iff (fun h => disjTask_symm h) hab).mp hp)
          (fun t ht => hbnd t (hab.mem_iff.mpr ht)) h1 h2]

theorem applyTasks_withOffsets :
    ∀ (cs : List (List (α × β))) (st : BatchStore α β) (i : Nat),
      applyTasks st (withOffsets i cs) = popLoop st i cs := by
  intro cs
  induction cs with
  | nil => intro st i; rfl
  | cons c cs ih =>
    intro st i
    show applyTasks (applyTask st (i, c)) (withOffsets (i + c.length) cs) = _
    rw [ih]
    rfl

theorem withOffsets_bound :
    ∀ (cs : List (List γ)) (i : Nat) (t : Nat × List γ), t ∈ withOffsets i cs →
      i ≤ t.1 ∧ t.1 + t.2.length ≤ i + cs.flatten.length := by
  intro cs
  induction cs with
  | nil => intro i t ht; simp [withOffsets] at ht
  | cons c cs ih =>
    intro i t ht
    simp only [withOffsets, List.mem_cons] at ht
    rcases ht with rfl | ht
    · simp only [List.flatten_cons, List.length_append]
      omega
    · obtain ⟨ha, hb⟩ := ih (i + c.length) t ht
      simp only [List.flatten_cons, List.length_append]
      omega

theorem withOffsets_pairwise :
    ∀ (cs : List (List γ)) (i : Nat), List.Pairwise disjTask (withOffsets i cs) := by
  intro cs
  induction cs with
  | nil => intro i; simp [withOffsets]
  | cons c cs ih =>
    intro i
    refine List.Pairwise.cons ?_ (ih (i + c.length))
    intro u hu
    exact Or.inl (withOffsets_bound cs (i + c.length) u hu).1

theorem taskList_bound {b : Nat} (hb : 0 < b) (ds : List (α × β)) :
    ∀ t ∈ taskList b ds, inBound ds.length t := by
  intro t ht
  have hwb := withOffsets_bound (chunkList b ds) 0 t ht
  have hflat : (chunkList b ds).flatten.length = ds.length := by
    rw [chunkList_flatten hb]
  unfold inBound
  omega

theorem applyTasks_length {n : Nat} :
    ∀ (ts : List (Nat × List (α × β))) (st : BatchStore α β),
      (∀ t ∈ ts, inBound n t) → st.images.length = n → st.targets.length = n →
      (applyTasks st ts).images.length = n ∧ (applyTasks st ts).targets.length = n := by
  intro ts
  induction ts with
  | nil => intro st _ h1 h2; exact ⟨h1, h2⟩
  | cons t ts ih =>
    intro st hbnd h1 h2
    obtain ⟨ha, hb⟩ := applyTask_length (hbnd t (List.mem_cons_self _ _)) h1 h2
    exact ih _ (fun u hu => hbnd u (List.mem_cons_of_mem _ hu)) ha hb

theorem range'_split (s m n : Nat) :
    List.range' s (m + n) = List.range' s m ++ List.range' (s + m) n := by
  have h := List.range'_append s m n 1
  simp only [one_mul] at h
  rw [Nat.add_comm m n]
  exact h.symm

theorem withOffsets_ranges :
    ∀ (cs : List (List γ)) (i : Nat),
      ((withOffsets i cs).map (fun t => List.range' t.1 t.2.length)).flatten
        = List.range' i cs.flatten.length := by
  intro cs
  induction cs with
  | nil => intro i; simp [withOffsets]
  | cons c cs ih =>
    intro i
    simp only [withOffsets, List.map_cons, List.flatten_cons, ih,
      List.length_append]
    rw [range'_split]

theorem withOffsets_map_len :
    ∀ (cs : List (List γ)) (i : Nat),
      (withOffsets i cs).map (fun t => t.2.length) = cs.map List.length := by
  intro cs
  induction cs with
  | nil => intro i; rfl
  | cons c cs ih =>
    intro i
    simp only [withOffsets, List.map_cons, ih]

theorem withOffsets_snd_mem :
    ∀ (cs : List (List γ)) (i : Nat) (t : Nat × List γ),
      t ∈ withOffsets i cs → t.2 ∈ cs := by
  intro cs
  induction cs with
  | nil => intro i t ht; simp [withOffsets] at ht
  | cons c cs ih =>
    intro i t ht
    simp only [withOffsets, List.mem_cons] at ht
    rcases ht with rfl | ht
    · exact List.mem_cons_self _ _
    · exact List.mem_cons_of_mem _ (ih (i + c.length) t ht)

theorem readBuf_append (h : Heap γ) (tail : Heap γ) {r : Nat}
    (hr : r < h.length) : readBuf (h ++ tail) r = readBuf h r := by
  simp only [readBuf, List.getElem?_append, if_pos hr]

theorem readBuf_prefix {h h' : Heap γ} (hp : h <+: h') {r : Nat}
    (hr : r < h.length) : readBuf h' r = readBuf h r := by
  obtain ⟨t, rfl⟩ := hp
  exact readBuf_append h t hr

theorem readBuf_snoc_self (h : Heap γ) (c : List γ) :
    readBuf (h ++ [c]) h.length = c := by
  simp only [readBuf, List.getElem?_append]
  rw [if_neg (by omega)]
  simp

theorem readBuf_set_ne (h : Heap γ) {r r' : Nat} (hne : r' ≠ r) (c : List γ) :
    readBuf (writeBuf h r' c) r = readBuf h r := by
  simp only [writeBuf, readBuf, List.getElem?_set_ne hne]

theorem collateCall_prefix (tf : Option (List γ → List γ)) (dev : Bool)
    (h : Heap γ) (x : BatchRefs) : h <+: (collateCall tf dev h x).1 := by
  cases dev <;> cases tf <;>
    simp only [collateCall, applyContiguous, toDevice, setImagesTransformed,
      allocBuf, Bool.false_eq_true, if_false, if_true] <;>
    (simp only [List.append_assoc]; exact List.prefix_append _ _)

theorem collateCall_refs_fresh (tf : Option (List γ → List γ)) (dev : Bool)
    (h : Heap γ) (x : BatchRefs) :
    h.length ≤ (collateCall tf dev h x).2.imagesRef ∧
    h.length ≤ (collateCall tf dev h x).2.targetsRef := by
  cases dev <;> cases tf <;>
    simp only [collateCall, applyContiguous, toDevice, setImagesTransformed,
      allocBuf, Bool.false_eq_true, if_false, if_true] <;>
    refine ⟨?_, ?_⟩ <;>
    (first
      | omega
      | (simp only [List.length_append, List.length_cons, List.length_nil]; omega))

theorem applyContiguous_spec (h : Heap γ) (x : BatchRefs)
    (hi : x.imagesRef < h.length) (ht : x.targetsRef < h.length) :
    readBuf (applyContiguous h x).1 (applyContiguous h x).2.imagesRef
        = readBuf h x.imagesRef ∧
    readBuf (applyContiguous h x).1 (applyContiguous h x).2.targetsRef
        = readBuf h x.targetsRef ∧
    (applyContiguous h x).2.imagesRef < (applyContiguous h x).1.length ∧
    (applyContiguous h x).2.targetsRef < (applyContiguous h x).1.length ∧
    h <+: (applyContiguous h x).1 := by
  simp only [applyContiguous, allocBuf]
  have hlt : h.length < (h ++ [readBuf h x.imagesRef]).length := by
    simp only [List.length_append, List.length_cons, List.length_nil]
    omega
  refine ⟨?_, ?_, ?_, ?_, ?_⟩
  · rw [readBuf_append _ _ hlt]
    exact readBuf_snoc_self _ _
  · rw [readBuf_snoc_self]
    exact readBuf_append _ _ ht
  · simp only [List.length_append, List.length_cons, List.length_nil]
    omega
  · simp only [List.length_append, List.length_cons, List.length_nil]
    omega
  · simp only [List.append_assoc]
    exact List.prefix_append _ _

theorem toDevice_spec (h : Heap γ) (x : BatchRefs)
    (hi : x.imagesRef < h.length) (ht : x.targetsRef < h.length) :
    readBuf (toDevice h x).1 (toDevice h x).2.imagesRef
        = readBuf h x.imagesRef ∧
    readBuf (toDevice h x).1 (toDevice h x).2.targetsRef
        = readBuf h x.targetsRef ∧
    (toDevice h x).2.imagesRef < (toDevice h x).1.length ∧
    (toDevice h x).2.targetsRef < (toDevice h x).1.length ∧
    h <+: (toDevice h x).1 :=
  applyContiguous_spec h x hi ht

theorem setImagesTransformed_spec (t : List γ → List γ) (h : Heap γ)
    (x : BatchRefs) (ht : x.targetsRef < h.length) :
    readBuf (setImagesTransformed t h x).1 (setImagesTransformed t h x).2.imagesRef
        = t (readBuf h x.imagesRef) ∧
    readBuf (setImagesTransformed t h x).1 (setImagesTransformed t h x).2.targetsRef
        = readBuf h x.targetsRef := by
  simp only [setImagesTransformed, allocBuf]
  exact ⟨readBuf_snoc_self _ _, readBuf_append _ _ ht⟩

theorem writeChunkShapes_ok {sh : List Nat} {c : List (List Nat)}
    (h : writeChunkShapes sh c = Except.ok ()) : ∀ s ∈ c, s = sh := by
  unfold writeChunkShapes at h
  split at h
  · rename_i htrue
    intro s hs
    simp only [List.all_eq_true, decide_eq_true_eq] at htrue
    exact htrue s hs
  · exact absurd h (by simp)

theorem popLoopShapes_ok {sh : List Nat} :
    ∀ {cs : List (List (List Nat))}, popLoopShapes sh cs = Except.ok () →
      ∀ c ∈ cs, ∀ s ∈ c, s = sh := by
  intro cs
  induction cs with
  | nil => intro _ c hc _ _; simp at hc
  | cons c cs ih =>
    intro h c' hc'
    simp only [popLoopShapes] at h
    cases hw : writeChunkShapes sh c with
    | ok u =>
      rw [hw] at h
      simp only [List.mem_cons] at hc'
      rcases hc' with rfl | hc'
      · exact writeChunkShapes_ok (by cases u; exact hw)
      · exact ih h c' hc'
    | error e =>
      rw [hw] at h
      exact absurd h (by simp)

theorem castUint8_uint8 {n : Nat} (hn : n < 256) : castUint8 (n : ℚ) = (n : ℚ) := by
  unfold castUint8 ratTrunc
  rw [if_pos (by positivity), Int.floor_natCast]
  rw [show ((n : ℤ) % 256 + 256) % 256 = (n : ℤ) from by omega]
  simp

theorem castImage_fixed :
    ∀ {l : UImage}, (∀ p ∈ l, ∃ n : Nat, n < 256 ∧ p = (n : ℚ)) →
      castImage l = l := by
  intro l
  induction l with
  | nil => intro _; rfl
  | cons p ps ih =>
    intro h
    obtain ⟨n, hn, rfl⟩ := h p (List.mem_cons_self _ _)
    show castUint8 (n : ℚ) :: castImage ps = _
    rw [castUint8_uint8 hn, ih (fun q hq => h q (List.mem_cons_of_mem _ hq))]

theorem popLoopU8_eq_popField {β : Type} :
    ∀ (cs : List (List (UImage × β))) (st : BatchStore UImage β) (i : Nat),
      popLoopU8 st i cs =
        ⟨popField i st.images (cs.map (List.map (fun r => castImage r.1))),
         popField i st.targets (cs.map (List.map Prod.snd))⟩ := by
  intro cs
  induction cs with
  | nil => intro st i; rfl
  | cons c cs ih =>
    intro st i
    simp only [popLoopU8, List.map_cons, popField, List.length_map]
    exact ih _ _

theorem popLoopU8_content {β : Type} {b : Nat} (hb : 0 < b) (iI : UImage)
    (iT : β) (ds : List (UImage × β)) :
    popLoopU8 (initStore iI iT ds.length) 0 (chunkList b ds)
      = ⟨ds.map (fun r => castImage r.1), ds.map Prod.snd⟩ := by
  rw [popLoopU8_eq_popField]
  have h1 : (chunkList b ds).map (List.map (fun r : UImage × β => castImage r.1))
      = chunkList b (ds.map (fun r => castImage r.1)) := (chunkList_map _ _).symm
  have h2 : (chunkList b ds).map (List.map Prod.snd)
      = chunkList b (ds.map Prod.snd) := (chunkList_map _ _).symm
  have hf1 : (chunkList b (ds.map (fun r : UImage × β => castImage r.1))).flatten
      = ds.map (fun r => castImage r.1) := chunkList_flatten hb _
  have hf2 : (chunkList b (ds.map Prod.snd)).flatten = ds.map Prod.snd :=
    chunkList_flatten hb _
  rw [h1, h2]
  rw [popField_eq _ 0 _ (by simp [hf1, initStore]),
      popField_eq _ 0 _ (by simp [hf2, initStore])]
  simp [hf1, hf2, initStore]

theorem fromDatasetU8_ok {β : Type} {b : Nat} (hb : 0 < b) (iI : UImage)
    (iT : β) {ds : List (UImage × β)} (hne : ds ≠ []) :
    fromDatasetU8 b iI iT ds
      = Except.ok ⟨ds.map (fun r => castImage r.1), ds.map Prod.snd⟩ := by
  match ds with
  | [] => exact absurd rfl hne
  | d :: rest =>
    show Except.ok (popLoopU8 (initStore iI iT (d :: rest).length) 0
        (chunkList b (d :: rest))) = _
    rw [popLoopU8_content hb]

/- ------------------------------------------------------------------ -/
/- Claim theorems and their witnesses.                                 -/
/- ------------------------------------------------------------------ -/

/-- C1 counterexample.  The round-trip fails on the validation store: a
source holding one float-transformed record with pixel value 1/2 (a
normalized validation image value) is populated into the uint8 store as
the cast value 0, so `get([0])` returns a value that is NOT bit-identical
to the input record.  This refutes the claim's assertion that the
round-trip holds for the validation store built at src line 258. -/
theorem roundtrip_uint8_counterexample :
    fromDatasetU8 1 [] (0 : ℤ) [([1/2], 0)]
        = Except.ok ⟨[[0]], [(0 : ℤ)]⟩ ∧
    BatchStore.get (⟨[[0]], [0]⟩ : BatchStore UImage ℤ) [0]
        = Except.ok ⟨[[0]], [0]⟩ ∧
    BatchStore.get (⟨[[0]], [0]⟩ : BatchStore UImage ℤ) [0]
        ≠ Except.ok ⟨[[(1/2 : ℚ)]], [0]⟩ := by
  have hc : castUint8 (1/2 : ℚ) = 0 := by
    norm_num [castUint8, ratTrunc]
  refine ⟨?_, rfl, ?_⟩
  · have h0 : fromDatasetU8 1 [] (0 : ℤ) [([1/2], 0)]
        = Except.ok ⟨[[castUint8 (1/2 : ℚ)]], [(0 : ℤ)]⟩ := rfl
    rw [h0, hc]
  · intro h
    rw [show BatchStore.get (⟨[[0]], [0]⟩ : BatchStore UImage ℤ) [0]
        = Except.ok ⟨[[0]], [0]⟩ from rfl] at h
    simp only [Except.ok.injEq, BatchStore.mk.injEq, List.cons.injEq,
      and_true, true_and] at h
    norm_num at h

/-- C1 amended.  Round-trip through the uint8 store: after population via
`from_dataset` (whose images store is hard-coded to `dtype=torch.uint8`,
src line 230), `get([i])` returns the i-th input record with its image
values cast to uint8 and its target exact; the result is bit-identical to
the input record precisely when the record's image values are
uint8-representable — true for the train store's uint8 raw images (src
line 257), not in general for the float-transformed validation records
(src line 258), which the program stores lossily. -/
theorem roundtrip_uint8 {b : Nat} {iI : UImage} {iT : β}
    {ds : List (UImage × β)} {st : BatchStore UImage β} {i : Nat}
    {r : UImage × β} (hb : 0 < b)
    (hok : fromDatasetU8 b iI iT ds = Except.ok st) (hr : ds[i]? = some r) :
    st.get [i] = Except.ok ⟨[castImage r.1], [r.2]⟩ ∧
    ((∀ p ∈ r.1, ∃ n : Nat, n < 256 ∧ p = (n : ℚ)) →
      st.get [i] = Except.ok ⟨[r.1], [r.2]⟩) := by
  have hne : ds ≠ [] := by
    intro hnil
    subst hnil
    simp at hr
  rw [fromDatasetU8_ok hb iI iT hne] at hok
  have hst : (⟨ds.map (fun r => castImage r.1), ds.map Prod.snd⟩ :
      BatchStore UImage β) = st := by
    injection hok
  subst hst
  have h1 : getIdxs (ds.map (fun r : UImage × β => castImage r.1)) [i]
      = some [castImage r.1] := by
    rw [getIdxs_singleton, List.getElem?_map, hr]
    rfl
  have h2 : getIdxs (ds.map Prod.snd) [i] = some [r.2] := by
    rw [getIdxs_singleton, List.getElem?_map, hr]
    rfl
  have hget : BatchStore.get
      (⟨ds.map (fun r : UImage × β => castImage r.1), ds.map Prod.snd⟩ :
        BatchStore UImage β) [i] = Except.ok ⟨[castImage r.1], [r.2]⟩ := by
    simp only [BatchStore.get, h1, h2]
  refine ⟨hget, fun hpix => ?_⟩
  rw [hget, castImage_fixed hpix]

/-- Witness for C1's amended claim: a one-record source whose image pixel
is the uint8 raw value 3; population with batch size 1 stores its cast
and, the pixel being uint8-representable, the read is bit-identical. -/
theorem roundtrip_uint8_witness :
    BatchStore.get (⟨[castImage [3]], [(7 : ℤ)]⟩ : BatchStore UImage ℤ) [0]
        = Except.ok ⟨[castImage ([3] : UImage)], [(7 : ℤ)]⟩ ∧
    ((∀ p ∈ ([3] : UImage), ∃ n : Nat, n < 256 ∧ p = (n : ℚ)) →
      BatchStore.get (⟨[castImage [3]], [(7 : ℤ)]⟩ : BatchStore UImage ℤ) [0]
        = Except.ok ⟨[([3] : UImage)], [(7 : ℤ)]⟩) :=
  @roundtrip_uint8 ℤ 1 [] 0 [([3], 7)] ⟨[castImage [3]], [7]⟩ 0 ([3], 7)
    (by decide) (by rfl) (by rfl)

/-- C5.  Index-alignment invariant: whenever `get` succeeds on an index
set containing `j` at position `k`, every field of the returned Working
Batch has leading length `idxs.length`, position `k` of the images field
and position `k` of the targets field both originate from the stored
record `j`, and this alignment is preserved through the reader's
relocate and transform steps (the transform acting record-wise on the
images field only). -/
theorem index_alignment_get {st wb : BatchStore α β} {idxs : List Nat}
    {k j : Nat} (tf : α → α)
    (h : st.get idxs = Except.ok wb) (hk : idxs[k]? = some j) :
    wb.images.length = idxs.length ∧ wb.targets.length = idxs.length ∧
    wb.images[k]? = st.images[j]? ∧ wb.targets[k]? = st.targets[j]? ∧
    (relocateBatch (transformImages tf wb)).images.length = idxs.length ∧
    (relocateBatch (transformImages tf wb)).targets[k]? = st.targets[j]? ∧
    (relocateBatch (transformImages tf wb)).images[k]? = (st.images[j]?).map tf := by
  cases him : getIdxs st.images idxs with
  | none => rw [BatchStore.get, him] at h; exact absurd h (by simp)
  | some im =>
    cases htg : getIdxs st.targets idxs with
    | none => rw [BatchStore.get, him, htg] at h; exact absurd h (by simp)
    | some tg =>
      rw [BatchStore.get, him, htg] at h
      have hwb : (⟨im, tg⟩ : BatchStore α β) = wb := by injection h
      subst hwb
      obtain ⟨hlen1, hidx1⟩ := getIdxs_some him
      obtain ⟨hlen2, hidx2⟩ := getIdxs_some htg
      refine ⟨hlen1, hlen2, hidx1 k j hk, hidx2 k j hk, ?_, ?_, ?_⟩
      · simp [relocateBatch, transformImages, hlen1]
      · simpa [relocateBatch, transformImages] using hidx2 k j hk
      · simp only [relocateBatch, transformImages, List.getElem?_map,
          hidx1 k j hk]

/-- Witness for C5: a concrete gather of indices [2, 0] from a
three-record store, checked at position 0 (record 2), with a concrete
images transform. -/
theorem index_alignment_get_witness :
    ([7, 5] : List Nat).length = ([2, 0] : List Nat).length ∧
    ([70, 50] : List Nat).length = ([2, 0] : List Nat).length ∧
    ([7, 5] : List Nat)[0]? = ([5, 6, 7] : List Nat)[2]? ∧
    ([70, 50] : List Nat)[0]? = ([50, 60, 70] : List Nat)[2]? ∧
    (relocateBatch (transformImages (fun v => v + 1) (⟨[7, 5], [70, 50]⟩ : BatchStore Nat Nat))).images.length = ([2, 0] : List Nat).length ∧
    (relocateBatch (transformImages (fun v => v + 1) (⟨[7, 5], [70, 50]⟩ : BatchStore Nat Nat))).targets[0]? = ([50, 60, 70] : List Nat)[2]? ∧
    (relocateBatch (transformImages (fun v => v + 1) (⟨[7, 5], [70, 50]⟩ : BatchStore Nat Nat))).images[0]? = (([5, 6, 7] : List Nat)[2]?).map (fun v => v + 1) :=
  @index_alignment_get Nat Nat ⟨[5, 6, 7], [50, 60, 70]⟩ ⟨[7, 5], [70, 50]⟩
    [2, 0] 0 2 (fun v => v + 1) (by rfl) (by decide)

/-- C2.  Scheduling noninterference of population: applying the
population tasks (each batch carrying its dispatch-time offset, assigned
from input order) in ANY completion order yields the same final store
content, namely the source records in their original iteration order.
The final content is thus a pure function of the input order and the
batch size, independent of worker scheduling. -/
theorem scheduling_noninterference {b : Nat} (iI : α) (iT : β)
    (ds : List (α × β)) (ts' : List (Nat × List (α × β)))
    (hb : 0 < b) (hperm : (taskList b ds).Perm ts') :
    applyTasks (initStore iI iT ds.length) ts'
      = ⟨ds.map Prod.fst, ds.map Prod.snd⟩ := by
  rw [← applyTasks_perm hperm (initStore iI iT ds.length)
      (withOffsets_pairwise _ 0) (taskList_bound hb ds)
      (by simp [initStore]) (by simp [initStore])]
  rw [show taskList b ds = withOffsets 0 (chunkList b ds) from rfl,
    applyTasks_withOffsets]
  exact popLoop_content hb iI iT ds

/-- Witness for C2: a three-record source with batch size 2, the two
population tasks completing in reversed order; the final content still
matches the source order. -/
theorem scheduling_noninterference_witness :
    applyTasks (initStore 0 0 3) [(2, [(3, 30)]), (0, [(1, 10), (2, 20)])]
      = ⟨[1, 2, 3], [10, 20, 30]⟩ :=
  @scheduling_noninterference Nat Nat 2 0 0 [(1, 10), (2, 20), (3, 30)]
    [(2, [(3, 30)]), (0, [(1, 10), (2, 20)])] (by decide) (by decide)

/-- C3 counterexample.  Population over a ten-record source with batch
size 2 aborts after 2 of 5 batches (4 of 10 records written); a
subsequent `get` on index 5 does NOT raise `IncompleteStoreError` — it
succeeds, returning the store's indeterminate initial content.  This
refutes the claim that every read of a partially populated store raises
`IncompleteStoreError`. -/
theorem incomplete_read_counterexample :
    abortedStore.get [5] = Except.ok ⟨[0], [0]⟩ ∧
    abortedStore.get [5] ≠ Except.error Err.incompleteStore := by
  have h : abortedStore.get [5] = Except.ok ⟨[0], [0]⟩ := by rfl
  refine ⟨h, ?_⟩
  rw [h]
  intro hcontra
  exact absurd hcontra (by simp)

/-- C3 amended.  Reads on a partially populated store are not rejected:
after population aborts having applied only a prefix of its task list,
`get` on ANY in-range index still succeeds (returning current content,
which at unwritten indices is the store's indeterminate initial fill);
no `IncompleteStoreError` exists on the read path, so the caller must
detect incompleteness before permitting reads. -/
theorem incomplete_read_amended {b k i : Nat} (iI : α) (iT : β)
    (ds : List (α × β)) (hb : 0 < b) (hi : i < ds.length) :
    ∃ wb, (applyTasks (initStore iI iT ds.length)
        ((taskList b ds).take k)).get [i] = Except.ok wb := by
  have hbnd : ∀ t ∈ (taskList b ds).take k, inBound ds.length t :=
    fun t ht => taskList_bound hb ds t (List.mem_of_mem_take ht)
  obtain ⟨h1, h2⟩ := applyTasks_length ((taskList b ds).take k)
    (initStore iI iT ds.length) hbnd (by simp [initStore]) (by simp [initStore])
  cases hv : (applyTasks (initStore iI iT ds.length)
      ((taskList b ds).take k)).images[i]? with
  | none =>
    rw [List.getElem?_eq_none_iff] at hv
    omega
  | some v =>
    cases hw : (applyTasks (initStore iI iT ds.length)
        ((taskList b ds).take k)).targets[i]? with
    | none =>
      rw [List.getElem?_eq_none_iff] at hw
      omega
    | some w =>
      refine ⟨⟨[v], [w]⟩, ?_⟩
      simp [BatchStore.get, getIdxs_singleton, hv, hw]

/-- Witness for C3's amended claim: the concrete aborted store of the
counterexample (4 of 10 records written) still serves a read of index
5. -/
theorem incomplete_read_amended_witness :
    ∃ wb, (applyTasks (initStore 0 0 dsTen.length)
        ((taskList 2 dsTen).take 2)).get [5] = Except.ok wb :=
  @incomplete_read_amended Nat Nat 2 2 5 0 0 dsTen (by decide) (by decide)

/-- C6.  Exactly-once full coverage: the write ranges `[i, i + _batch)`
emitted by the population loop partition `[0, record_count)` in order —
their concatenation is exactly `0, 1, ..., record_count - 1`, with no
gap and no overlap — the cumulative count of written records equals
`record_count`, and every emitted batch is nonempty with length at most
the configured batch size (the final partial batch is written with its
actual length). -/
theorem exactly_once_coverage {b : Nat} (ds : List (α × β)) (hb : 0 < b) :
    ((writeRangesOf b ds).map (fun p => List.range' p.1 p.2)).flatten
        = List.range ds.length ∧
    ((writeRangesOf b ds).map (fun p => p.2)).sum = ds.length ∧
    ∀ p ∈ writeRangesOf b ds, 0 < p.2 ∧ p.2 ≤ b := by
  unfold writeRangesOf
  refine ⟨?_, ?_, ?_⟩
  · rw [List.map_map]
    show ((taskList b ds).map (fun t => List.range' t.1 t.2.length)).flatten = _
    rw [show taskList b ds = withOffsets 0 (chunkList b ds) from rfl,
      withOffsets_ranges, chunkList_flatten hb, List.range_eq_range']
  · rw [List.map_map]
    show ((taskList b ds).map (fun t => t.2.length)).sum = _
    rw [show taskList b ds = withOffsets 0 (chunkList b ds) from rfl,
      withOffsets_map_len, ← List.length_flatten, chunkList_flatten hb]
  · intro p hp
    simp only [List.mem_map] at hp
    obtain ⟨t, ht, rfl⟩ := hp
    exact chunkList_mem_length hb (withOffsets_snd_mem _ 0 t ht)

/-- Witness for C6: a five-record source with batch size 2 — ranges
[0,2), [2,4), [4,5): the last partial batch has length 1. -/
theorem exactly_once_coverage_witness :
    ((writeRangesOf 2 [(1, 1), (2, 2), (3, 3), (4, 4), (5, 5)]).map
        (fun p => List.range' p.1 p.2)).flatten
      = List.range ([(1, 1), (2, 2), (3, 3), (4, 4), (5, 5)] : List (Nat × Nat)).length ∧
    ((writeRangesOf 2 [(1, 1), (2, 2), (3, 3), (4, 4), (5, 5)]).map
        (fun p => p.2)).sum
      = ([(1, 1), (2, 2), (3, 3), (4, 4), (5, 5)] : List (Nat × Nat)).length ∧
    ∀ p ∈ writeRangesOf 2 [(1, 1), (2, 2), (3, 3), (4, 4), (5, 5)],
      0 < p.2 ∧ p.2 ≤ 2 :=
  exactly_once_coverage [(1, 1), (2, 2), (3, 3), (4, 4), (5, 5)] (by decide)

/-- C4.  Fetch isolation: `Collate.__call__` realizes the fetched batch
into fresh (non-mapped) buffers — for any transform option and device
option, the store's buffers are unchanged by collation, the Working
Batch's buffer references are distinct from the store's, and in-place
mutation of either Working Batch buffer leaves the store's buffers'
content unchanged. -/
theorem fetch_isolation {h : Heap γ} {x : BatchRefs}
    (tf : Option (List γ → List γ)) (dev : Bool)
    (hi : x.imagesRef < h.length) (ht : x.targetsRef < h.length) :
    readBuf (collateCall tf dev h x).1 x.imagesRef = readBuf h x.imagesRef ∧
    readBuf (collateCall tf dev h x).1 x.targetsRef = readBuf h x.targetsRef ∧
    (collateCall tf dev h x).2.imagesRef ≠ x.imagesRef ∧
    (collateCall tf dev h x).2.targetsRef ≠ x.targetsRef ∧
    (∀ c, readBuf (writeBuf (collateCall tf dev h x).1
        (collateCall tf dev h x).2.imagesRef c) x.imagesRef
      = readBuf h x.imagesRef) ∧
    (∀ c, readBuf (writeBuf (collateCall tf dev h x).1
        (collateCall tf dev h x).2.targetsRef c) x.targetsRef
      = readBuf h x.targetsRef) := by
  obtain ⟨hf1, hf2⟩ := collateCall_refs_fresh tf dev h x
  have hpre := collateCall_prefix tf dev h x
  have e1 : readBuf (collateCall tf dev h x).1 x.imagesRef
      = readBuf h x.imagesRef := readBuf_prefix hpre hi
  have e2 : readBuf (collateCall tf dev h x).1 x.targetsRef
      = readBuf h x.targetsRef := readBuf_prefix hpre ht
  refine ⟨e1, e2, by omega, by omega, ?_, ?_⟩
  · intro c
    rw [readBuf_set_ne _ (by omega) c]
    exact e1
  · intro c
    rw [readBuf_set_ne _ (by omega) c]
    exact e2

/-- Witness for C4: a concrete two-buffer heap serving as the store, with
a doubling transform and a device move. -/
theorem fetch_isolation_witness :
    readBuf (collateCall (some (fun l => l.map (fun v => v * 2))) true
        [[1, 2], [5]] ⟨0, 1⟩).1 0 = readBuf [[1, 2], [5]] 0 ∧
    readBuf (collateCall (some (fun l => l.map (fun v => v * 2))) true
        [[1, 2], [5]] ⟨0, 1⟩).1 1 = readBuf [[1, 2], [5]] 1 ∧
    (collateCall (some (fun l => l.map (fun v => v * 2))) true
        [[1, 2], [5]] ⟨0, 1⟩).2.imagesRef ≠ (0 : Nat) ∧
    (collateCall (some (fun l => l.map (fun v => v * 2))) true
        [[1, 2], [5]] ⟨0, 1⟩).2.targetsRef ≠ (1 : Nat) ∧
    (∀ c, readBuf (writeBuf (collateCall (some (fun l => l.map (fun v => v * 2))) true
        [[1, 2], [5]] ⟨0, 1⟩).1
        (collateCall (some (fun l => l.map (fun v => v * 2))) true
          [[1, 2], [5]] ⟨0, 1⟩).2.imagesRef c) 0 = readBuf [[1, 2], [5]] 0) ∧
    (∀ c, readBuf (writeBuf (collateCall (some (fun l => l.map (fun v => v * 2))) true
        [[1, 2], [5]] ⟨0, 1⟩).1
        (collateCall (some (fun l => l.map (fun v => v * 2))) true
          [[1, 2], [5]] ⟨0, 1⟩).2.targetsRef c) 1 = readBuf [[1, 2], [5]] 1) :=
  @fetch_isolation Nat [[1, 2], [5]] ⟨0, 1⟩
    (some (fun l => l.map (fun v => v * 2))) true (by decide) (by decide)

/-- C7.  Transform field restriction: with a transform installed,
`Collate.__call__` applies it to the images field only — the targets
buffer of the returned Working Batch holds exactly the targets content
fetched from the store, and the images buffer holds the transform of the
fetched images content. -/
theorem transform_images_only {h : Heap γ} {x : BatchRefs}
    (t : List γ → List γ) (dev : Bool)
    (hi : x.imagesRef < h.length) (ht : x.targetsRef < h.length) :
    readBuf (collateCall (some t) dev h x).1
        (collateCall (some t) dev h x).2.targetsRef
      = readBuf h x.targetsRef ∧
    readBuf (collateCall (some t) dev h x).1
        (collateCall (some t) dev h x).2.imagesRef
      = t (readBuf h x.imagesRef) := by
  obtain ⟨a1, a2, a3, a4, _⟩ := applyContiguous_spec h x hi ht
  cases dev with
  | false =>
    obtain ⟨b1, b2⟩ := setImagesTransformed_spec t (applyContiguous h x).1
      (applyContiguous h x).2 a4
    refine ⟨?_, ?_⟩
    · show readBuf (setImagesTransformed t (applyContiguous h x).1
          (applyContiguous h x).2).1
          (setImagesTransformed t (applyContiguous h x).1
            (applyContiguous h x).2).2.targetsRef = _
      rw [b2, a2]
    · show readBuf (setImagesTransformed t (applyContiguous h x).1
          (applyContiguous h x).2).1
          (setImagesTransformed t (applyContiguous h x).1
            (applyContiguous h x).2).2.imagesRef = _
      rw [b1, a1]
  | true =>
    obtain ⟨c1, c2, c3, c4, _⟩ := toDevice_spec (applyContiguous h x).1
      (applyContiguous h x).2 a3 a4
    obtain ⟨b1, b2⟩ := setImagesTransformed_spec t
      (toDevice (applyContiguous h x).1 (applyContiguous h x).2).1
      (toDevice (applyContiguous h x).1 (applyContiguous h x).2).2 c4
    refine ⟨?_, ?_⟩
    · show readBuf (setImagesTransformed t
          (toDevice (applyContiguous h x).1 (applyContiguous h x).2).1
          (toDevice (applyContiguous h x).1 (applyContiguous h x).2).2).1
          (setImagesTransformed t
            (toDevice (applyContiguous h x).1 (applyContiguous h x).2).1
            (toDevice (applyContiguous h x).1 (applyContiguous h x).2).2).2.targetsRef = _
      rw [b2, c2, a2]
    · show readBuf (setImagesTransformed t
          (toDevice (applyContiguous h x).1 (applyContiguous h x).2).1
          (toDevice (applyContiguous h x).1 (applyContiguous h x).2).2).1
          (setImagesTransformed t
            (toDevice (applyContiguous h x).1 (applyContiguous h x).2).1
            (toDevice (applyContiguous h x).1 (applyContiguous h x).2).2).2.imagesRef = _
      rw [b1, c1, a1]

/-- Witness for C7: the doubling transform applied through Collate on a
concrete store leaves the targets as fetched and doubles the images. -/
theorem transform_images_only_witness :
    readBuf (collateCall (some (fun l => l.map (fun v => v * 2))) false
        [[1, 2], [5]] ⟨0, 1⟩).1
        (collateCall (some (fun l => l.map (fun v => v * 2))) false
          [[1, 2], [5]] ⟨0, 1⟩).2.targetsRef
      = readBuf [[1, 2], [5]] 1 ∧
    readBuf (collateCall (some (fun l => l.map (fun v => v * 2))) false
        [[1, 2], [5]] ⟨0, 1⟩).1
        (collateCall (some (fun l => l.map (fun v => v * 2))) false
          [[1, 2], [5]] ⟨0, 1⟩).2.imagesRef
      = (fun l => l.map (fun v => v * 2)) (readBuf [[1, 2], [5]] 0) :=
  @transform_images_only Nat [[1, 2], [5]] ⟨0, 1⟩
    (fun l => l.map (fun v => v * 2)) false (by decide) (by decide)

/-- C9.  Empty-source behavior: `from_dataset` on a zero-length source
fails with the `IndexError` raised while deriving the image schema from
`dataset[0][0]` (evaluated before any `MemmapTensor` is constructed, per
Python's argument evaluation order), at both the value level and the
shape level; no store claiming validity is ever produced (the result is
an error, never `ok`). -/
theorem empty_source_error :
    (∀ (b : Nat) (iI : α) (iT : β),
      fromDataset b iI iT [] = Except.error Err.indexError) ∧
    (∀ b : Nat, fromDatasetShapes b [] = Except.error Err.indexError) :=
  ⟨fun _ _ _ => rfl, fun _ => rfl⟩

/-- C10.  First-record schema derivation: when population succeeds, the
store's per-record image shape is exactly
`dataset[0][0].squeeze().shape` — the first record's shape with all
size-one dimensions removed — and every record's raw image shape must
equal that post-squeeze shape; moreover a first record containing any
size-one dimension yields a stored shape different from its raw
per-record shape. -/
theorem first_record_schema :
    (∀ (b : Nat) (shapes : List (List Nat)) (sh : List Nat) (n : Nat),
      0 < b → fromDatasetShapes b shapes = Except.ok (sh, n) →
        sh = squeezeShape (shapes.headD []) ∧ n = shapes.length ∧
        ∀ s ∈ shapes, s = sh) ∧
    (∀ s0 : List Nat, 1 ∈ s0 → squeezeShape s0 ≠ s0) := by
  constructor
  · intro b shapes sh n hb hok
    match shapes with
    | [] => exact absurd hok (by simp [fromDatasetShapes])
    | s0 :: rest =>
      simp only [fromDatasetShapes] at hok
      cases hp : popLoopShapes (squeezeShape s0) (chunkList b (s0 :: rest)) with
      | error e =>
        rw [hp] at hok
        exact absurd hok (by simp)
      | ok u =>
        rw [hp] at hok
        have hpair : (squeezeShape s0, (s0 :: rest).length) = (sh, n) := by
          injection hok
        have hsh : squeezeShape s0 = sh := congrArg Prod.fst hpair
        have hn : (s0 :: rest).length = n := congrArg Prod.snd hpair
        refine ⟨hsh.symm, hn.symm, ?_⟩
        intro s hs
        have hsf : s ∈ (chunkList b (s0 :: rest)).flatten := by
          rw [chunkList_flatten hb]
          exact hs
        obtain ⟨c, hc, hsc⟩ := List.mem_flatten.mp hsf
        rw [← hsh]
        exact popLoopShapes_ok (by cases u; exact hp) c hc s hsc
  · intro s0 h1 heq
    have hlt : (s0.filter (fun d => decide (d ≠ 1))).length < s0.length :=
      List.length_filter_lt_length_iff_exists.mpr ⟨1, h1, by simp⟩
    have hlen := congrArg List.length heq
    simp only [squeezeShape] at hlen
    omega

/-- Witness for C10: batch size 2 over three records of raw shape
[3, 4]; the derived store shape is [3, 4] and every record matches it;
and squeezing the shape [1, 3] changes it. -/
theorem first_record_schema_witness :
    (([3, 4] : List Nat) = squeezeShape (([[3, 4], [3, 4], [3, 4]] : List (List Nat)).headD []) ∧
      (3 : Nat) = ([[3, 4], [3, 4], [3, 4]] : List (List Nat)).length ∧
      ∀ s ∈ ([[3, 4], [3, 4], [3, 4]] : List (List Nat)), s = [3, 4]) ∧
    squeezeShape [1, 3] ≠ [1, 3] :=
  ⟨first_record_schema.1 2 [[3, 4], [3, 4], [3, 4]] [3, 4] 3 (by decide) (by rfl),
   first_record_schema.2 [1, 3] (by decide)⟩

/-- C8 counterexample.  The collate transform is NOT a pure function of
its input batch: on the same concrete one-image batch, two applications
that differ only in the RandomHFlip Bernoulli draw produce different
output batches. -/
theorem transform_purity_counterexample :
    collateTransform 0 1 2 2 [(0, 0)] [true] [testImage]
      ≠ collateTransform 0 1 2 2 [(0, 0)] [false] [testImage] := by
  have hr2 : List.range 2 = [0, 1] := rfl
  have hL : collateTransform 0 1 2 2 [(0, 0)] [true] [testImage]
      = [[[2, 1], [5, 4]]] := by
    norm_num [collateTransform, randomHFlip, randomCrop, invAffine,
      hflipImage, randomCropImage, invAffineImage, maskedFill, flipLast,
      addImage, gatherRows, gatherCols, testImage, hr2, List.replicate_succ]
  have hR : collateTransform 0 1 2 2 [(0, 0)] [false] [testImage]
      = [[[1, 2], [4, 5]]] := by
    norm_num [collateTransform, randomHFlip, randomCrop, invAffine,
      hflipImage, randomCropImage, invAffineImage, maskedFill, flipLast,
      addImage, gatherRows, gatherCols, testImage, hr2, List.replicate_succ]
  rw [hL, hR]
  intro heq
  have h00 := congrArg (fun l => ((l.getD 0 []).getD 0 []).getD 0 (0 : ℚ)) heq
  norm_num at h00

/-- C8 amended.  Every transform consumed by the pipeline is a pure,
record-wise function of its input batch TOGETHER WITH its random draws:
record `k` of the collate transform's output is determined by record `k`
of the input, the `k`-th crop-corner draw and the `k`-th flip coin alone
(InvAffine uses no randomness; RandomCrop and RandomHFlip consume the
explicit draws, so equal inputs need equal draws to yield equal
outputs). -/
theorem transform_purity_amended (loc scale : ℚ) (h w : Nat)
    (draws : List (Nat × Nat)) (coins : List Bool) (batch : List Image)
    (k : Nat) (d : Nat × Nat) (c : Bool) (img : Image)
    (hd : draws[k]? = some d) (hc : coins[k]? = some c)
    (himg : batch[k]? = some img) :
    (collateTransform loc scale h w draws coins batch)[k]?
      = some (hflipImage c (randomCropImage h w d (invAffineImage loc scale img))) := by
  simp only [collateTransform, randomHFlip, randomCrop, invAffine,
    List.getElem?_zipWith, List.getElem?_map, hd, hc, himg]
  rfl

/-- Witness for C8's amended claim: the record-wise decomposition
evaluated on the concrete one-image batch of the counterexample. -/
theorem transform_purity_amended_witness :
    (collateTransform 0 1 2 2 [(0, 0)] [true] [testImage])[0]?
      = some (hflipImage true (randomCropImage 2 2 (0, 0) (invAffineImage 0 1 testImage))) :=
  transform_purity_amended 0 1 2 2 [(0, 0)] [true] [testImage] 0 (0, 0) true
    testImage (by rfl) (by rfl) (by rfl)

end TensordictImagenet
